import Mathlib

/-!
Shallow embedding of the gift-wrapping (Jarvis march) convex-hull program
`src/jarvis_march-Rcpp.cpp` and verification of the specification claims.

Modelling conventions:
* C++ `double` coordinates are modelled as exact rationals `ℚ`; the only
  operations the program performs on coordinates are `+ - *` and comparisons.
* The initial `leftmost_val` of `find_leftmost_point` is `+infinity` at every
  call site; it is modelled as `⊤ : WithTop ℚ`.
* The global pseudo-random stream produced by `rand()` is modelled as an
  explicit list of draws (`draws : List Nat`); `rand() % points.size()` becomes
  `d % points.length` for the next unconsumed draw `d`.  The unbounded `while`
  loops become structural recursion on the draw list (for `find_new_point`) and
  on an explicit `fuel` bound (for the main hull loop), returning `none` when
  the supply is exhausted.
* `std::vector` indexing is modelled with `List.getD` (all indices produced by
  the program are in range on the executions the theorems talk about).
-/

set_option maxHeartbeats 1000000

namespace JarvisMarch

/-- `struct point`: a single point on a two-dimensional plane. -/
structure point where
  x : ℚ
  y : ℚ
deriving DecidableEq, Repr

instance : Inhabited point := ⟨⟨0, 0⟩⟩

/-- `struct triplet_of_points`: three points together with the derived
`determinent`/`dot_product` values and the two classification flags.  The
flags are value-initialized to `false` in the C++ (`bool right_turn {}`). -/
structure triplet_of_points where
  right_turn : Bool
  collinearity : Bool
  determinent : ℚ
  dot_product : ℚ
deriving DecidableEq, Repr

/-- The `triplet_of_points(p1, p2, p3)` constructor:
`a = p1 - p2`, `b = p3 - p2`, `determinent = a.x*b.y - b.x*a.y`,
`dot_product = a.x*b.x + a.y*b.y`; the flags keep their default `false`. -/
def mk_triplet (p1 p2 p3 : point) : triplet_of_points :=
  let a : point := ⟨p1.x - p2.x, p1.y - p2.y⟩
  let b : point := ⟨p3.x - p2.x, p3.y - p2.y⟩
  { right_turn := false
    collinearity := false
    determinent := a.x * b.y - b.x * a.y
    dot_product := a.x * b.x + a.y * b.y }

/-- `find_orientation()`: the if/else-if chain of the source.  When no branch
fires (`determinent == 0 && dot_product == 0`) the flags are left unchanged,
i.e. at their default `false` values. -/
def find_orientation (t : triplet_of_points) : triplet_of_points :=
  if t.determinent > 0 then
    { t with right_turn := true, collinearity := false }
  else if t.determinent = 0 ∧ t.dot_product < 0 then
    { t with right_turn := true, collinearity := true }
  else if t.determinent = 0 ∧ t.dot_product > 0 then
    { t with right_turn := false, collinearity := true }
  else if t.determinent < 0 then
    { t with right_turn := false, collinearity := false }
  else t

/-- The `for` loop of `find_leftmost_point`, carrying the running
`leftmost_val_update` / `leftmost_index_update` state (`best` starts at 0)
and the current loop index `i`. -/
def flp_go : List point → WithTop ℚ → Nat → Nat → Nat
  | [], _, _, best => best
  | p :: ps, val, i, best =>
    if (p.x : WithTop ℚ) < val then flp_go ps (p.x : WithTop ℚ) (i + 1) i
    else flp_go ps val (i + 1) best

/-- `find_leftmost_point(leftmost_val, points)`: index of the first point whose
x-coordinate strictly improves on `leftmost_val`, scanning left to right with
strict `<` (so the first occurrence of the minimum wins). -/
def find_leftmost_point (leftmost_val : WithTop ℚ) (points : List point) : Nat :=
  flp_go points leftmost_val 0 0

/-- `find_new_point(points, exceptions)`: draw `rand() % points.size()` until
the result is not in `exceptions`.  Returns the accepted index together with
the unconsumed rest of the draw list, or `none` if the draws run out. -/
def find_new_point (points : List point) (exceptions : List Nat) :
    List Nat → Option (Nat × List Nat)
  | [] => none
  | d :: ds =>
    let new_point := d % points.length
    if new_point ∈ exceptions then find_new_point points exceptions ds
    else some (new_point, ds)

/-- The inner `for (test_point ...)` loop of `find_convex_hull`: for each test
index `t` (skipping the current candidate and the hull end) build the triplet
(end, t, candidate), then update the candidate by the two `if`s of the source,
and clear the `all_points_collinear` flag on a non-collinear triplet. -/
def scan_tests (points : List point) (convex_hull : List Nat) (end_idx : Nat) :
    List Nat → Nat → Bool → Nat × Bool
  | [], candidate, apc => (candidate, apc)
  | t :: ts, candidate, apc =>
    if t ≠ candidate ∧ t ≠ end_idx then
      let trip := find_orientation
        (mk_triplet (points.getD end_idx default) (points.getD t default)
          (points.getD candidate default))
      let candidate1 := if trip.right_turn then t else candidate
      let candidate2 :=
        if trip.collinearity ∧ candidate1 ∈ convex_hull ∧ t ∉ convex_hull.tail
        then t else candidate1
      let apc1 := if trip.collinearity = false then false else apc
      scan_tests points convex_hull end_idx ts candidate2 apc1
    else scan_tests points convex_hull end_idx ts candidate apc

/-- The main `while (not_complete_hull)` loop of `find_convex_hull`, on an
explicit fuel bound.  Each iteration draws an initial candidate (excluding the
hull end), refines it over all test points, appends it, and closes when the
appended index already occurs earlier — dropping the duplicate only when it
equals the front of the hull. -/
def hull_loop (points : List point) :
    Nat → List Nat → List Nat → Bool → Option (List Nat × Bool)
  | 0, _, _, _ => none
  | fuel + 1, draws, convex_hull, apc =>
    match find_new_point points [convex_hull.getLastD 0] draws with
    | none => none
    | some (c0, draws1) =>
      if (scan_tests points convex_hull (convex_hull.getLastD 0)
            (List.range points.length) c0 apc).1 ∈ convex_hull then
        some ((if convex_hull.headD 0 =
                  (scan_tests points convex_hull (convex_hull.getLastD 0)
                    (List.range points.length) c0 apc).1 then convex_hull
               else convex_hull ++
                 [(scan_tests points convex_hull (convex_hull.getLastD 0)
                    (List.range points.length) c0 apc).1]),
              (scan_tests points convex_hull (convex_hull.getLastD 0)
                (List.range points.length) c0 apc).2)
      else hull_loop points fuel draws1
        (convex_hull ++
          [(scan_tests points convex_hull (convex_hull.getLastD 0)
             (List.range points.length) c0 apc).1])
        (scan_tests points convex_hull (convex_hull.getLastD 0)
          (List.range points.length) c0 apc).2

/-- The degenerate (`all_points_collinear == true`) output-assembly loop:
emit the point at `convex_hull[0]`, then the point at `convex_hull[i]` as long
as that index does not occur among the first `i - 1` recorded indices
(the source searches the range `[begin, begin + (i-1))`), and `break` at the
first index that does. -/
def rebuild_go (points : List point) (convex_hull : List Nat) :
    List Nat → List point
  | [] => []
  | i :: is =>
    if i = 0 then
      points.getD (convex_hull.getD 0 0) default :: rebuild_go points convex_hull is
    else if convex_hull.getD i 0 ∉ convex_hull.take (i - 1) then
      points.getD (convex_hull.getD i 0) default :: rebuild_go points convex_hull is
    else []

/-- Degenerate output assembly over all positions of the recorded index walk. -/
def rebuild (points : List point) (convex_hull : List Nat) : List point :=
  rebuild_go points convex_hull (List.range convex_hull.length)

/-- `find_convex_hull(points)`: the 0/1/2-point special cases, then the main
loop followed by the non-degenerate (map indices to points) or degenerate
(`rebuild`) output assembly. -/
def find_convex_hull (points : List point) (fuel : Nat) (draws : List Nat) :
    Option (List point) :=
  if points.length = 0 then some []
  else if points.length = 1 then some [points.getD 0 default]
  else if points.length = 2 then
    let leftmost_index := find_leftmost_point ⊤ points
    let rightmost_index := if leftmost_index = 0 then 1 else 0
    some [points.getD leftmost_index default, points.getD rightmost_index default]
  else
    let leftmost_index := find_leftmost_point ⊤ points
    match hull_loop points fuel draws [leftmost_index] true with
    | none => none
    | some (convex_hull, apc) =>
      if apc = false then some (convex_hull.map (fun i => points.getD i default))
      else some (rebuild points convex_hull)

/-- `jarvis_march(x, y)`: build the point vector by iterating over the indices
of `x` (the source reads `y[i]` for those same indices without any length
check; an out-of-range read — undefined behaviour in C++ when `y` is shorter —
is modelled by `getD`'s default), seed the generator, find the hull, and
return the x-coordinates of the hull points. -/
def jarvis_march (x y : List ℚ) (fuel : Nat) (draws : List Nat) :
    Option (List ℚ) :=
  let points := (List.range x.length).map
    (fun i => point.mk (x.getD i 0) (y.getD i 0))
  match find_convex_hull points fuel draws with
  | none => none
  | some hull => some (hull.map point.x)

/-- A model of the C library generator: `g` maps a generator state to the pair
(value returned by `rand()`, successor state).  `rand_stream g s k` is the list
of the first `k` values drawn from state `s`. -/
def rand_stream (g : Nat → Nat × Nat) : Nat → Nat → List Nat
  | _, 0 => []
  | s, k + 1 => (g s).1 :: rand_stream g (g s).2 k

/-- The generator state after drawing `k` values from state `s`. -/
def rand_state_after (g : Nat → Nat × Nat) : Nat → Nat → Nat
  | s, 0 => s
  | s, k + 1 => rand_state_after g (g s).2 k

/-- One call of the entry point threading the process-wide generator state:
`srand(10)` overwrites the incoming state with the fixed seed 10 before any
draw, so the draws of the call are taken from state 10 and the incoming
`_rng_state` is discarded. -/
def jarvis_march_call (g : Nat → Nat × Nat) (_rng_state : Nat) (x y : List ℚ)
    (fuel k : Nat) : Option (List ℚ) × Nat :=
  let seed := 10
  (jarvis_march x y fuel (rand_stream g seed k), rand_state_after g seed k)

/-! ### Basic facts about `find_orientation` -/

attribute [local semireducible] Rat.add Rat.sub Rat.mul

theorem find_orientation_of_pos (t : triplet_of_points) (h : 0 < t.determinent) :
    find_orientation t = { t with right_turn := true, collinearity := false } := by
  unfold find_orientation
  rw [if_pos h]

theorem find_orientation_of_zero_neg (t : triplet_of_points)
    (h0 : t.determinent = 0) (h : t.dot_product < 0) :
    find_orientation t = { t with right_turn := true, collinearity := true } := by
  unfold find_orientation
  rw [if_neg (by rw [h0]; exact lt_irrefl 0), if_pos ⟨h0, h⟩]

theorem find_orientation_of_zero_pos (t : triplet_of_points)
    (h0 : t.determinent = 0) (h : 0 < t.dot_product) :
    find_orientation t = { t with right_turn := false, collinearity := true } := by
  unfold find_orientation
  rw [if_neg (by rw [h0]; exact lt_irrefl 0),
    if_neg (fun hc => absurd (hc.2.trans h) (lt_irrefl _)), if_pos ⟨h0, h⟩]

theorem find_orientation_of_neg (t : triplet_of_points) (h : t.determinent < 0) :
    find_orientation t = { t with right_turn := false, collinearity := false } := by
  unfold find_orientation
  rw [if_neg (fun hc => absurd (h.trans hc) (lt_irrefl _)),
    if_neg (fun hc => by rw [hc.1] at h; exact lt_irrefl 0 h),
    if_neg (fun hc => by rw [hc.1] at h; exact lt_irrefl 0 h), if_pos h]

theorem find_orientation_of_zero_zero (t : triplet_of_points)
    (h0 : t.determinent = 0) (h1 : t.dot_product = 0) :
    find_orientation t = t := by
  unfold find_orientation
  rw [if_neg (by rw [h0]; exact lt_irrefl 0),
    if_neg (fun hc => by rw [h1] at hc; exact lt_irrefl 0 hc.2),
    if_neg (fun hc => by rw [h1] at hc; exact lt_irrefl 0 hc.2),
    if_neg (by rw [h0]; exact lt_irrefl 0)]

theorem mk_triplet_determinent (p1 p2 p3 : point) :
    (mk_triplet p1 p2 p3).determinent =
      (p1.x - p2.x) * (p3.y - p2.y) - (p1.y - p2.y) * (p3.x - p2.x) := by
  simp only [mk_triplet]
  ring

theorem mk_triplet_dot_product (p1 p2 p3 : point) :
    (mk_triplet p1 p2 p3).dot_product =
      (p1.x - p2.x) * (p3.x - p2.x) + (p1.y - p2.y) * (p3.y - p2.y) := by
  simp only [mk_triplet]

/-- C3: for every triplet of points (p1, p2, p3), with a = p1 − p2, b = p3 − p2,
determinant = a.x·b.y − a.y·b.x and dotProduct = a.x·b.x + a.y·b.y,
`find_orientation` sets: determinant > 0 → right_turn true and collinearity
false; determinant = 0 and dotProduct < 0 → right_turn true and collinearity
true; determinant = 0 and dotProduct > 0 → right_turn false and collinearity
true; determinant < 0 → right_turn false and collinearity false. -/
theorem find_orientation_classification (p1 p2 p3 : point) :
    (0 < (p1.x - p2.x) * (p3.y - p2.y) - (p1.y - p2.y) * (p3.x - p2.x) →
      (find_orientation (mk_triplet p1 p2 p3)).right_turn = true ∧
      (find_orientation (mk_triplet p1 p2 p3)).collinearity = false) ∧
    ((p1.x - p2.x) * (p3.y - p2.y) - (p1.y - p2.y) * (p3.x - p2.x) = 0 →
      (p1.x - p2.x) * (p3.x - p2.x) + (p1.y - p2.y) * (p3.y - p2.y) < 0 →
      (find_orientation (mk_triplet p1 p2 p3)).right_turn = true ∧
      (find_orientation (mk_triplet p1 p2 p3)).collinearity = true) ∧
    ((p1.x - p2.x) * (p3.y - p2.y) - (p1.y - p2.y) * (p3.x - p2.x) = 0 →
      0 < (p1.x - p2.x) * (p3.x - p2.x) + (p1.y - p2.y) * (p3.y - p2.y) →
      (find_orientation (mk_triplet p1 p2 p3)).right_turn = false ∧
      (find_orientation (mk_triplet p1 p2 p3)).collinearity = true) ∧
    ((p1.x - p2.x) * (p3.y - p2.y) - (p1.y - p2.y) * (p3.x - p2.x) < 0 →
      (find_orientation (mk_triplet p1 p2 p3)).right_turn = false ∧
      (find_orientation (mk_triplet p1 p2 p3)).collinearity = false) := by
  have hdet := mk_triplet_determinent p1 p2 p3
  have hdot := mk_triplet_dot_product p1 p2 p3
  refine ⟨fun h => ?_, fun h0 h => ?_, fun h0 h => ?_, fun h => ?_⟩
  · rw [find_orientation_of_pos _ (by rw [hdet]; exact h)]
    exact ⟨rfl, rfl⟩
  · rw [find_orientation_of_zero_neg _ (by rw [hdet]; exact h0) (by rw [hdot]; exact h)]
    exact ⟨rfl, rfl⟩
  · rw [find_orientation_of_zero_pos _ (by rw [hdet]; exact h0) (by rw [hdot]; exact h)]
    exact ⟨rfl, rfl⟩
  · rw [find_orientation_of_neg _ (by rw [hdet]; exact h)]
    exact ⟨rfl, rfl⟩

/-- Witness for C3: each of the four branches evaluated at a concrete
triplet: (1,0),(0,0),(0,1) is a right turn; (1,0),(0,0),(−1,0) is straight
back; (1,0),(0,0),(2,0) is straight forward; (0,1),(0,0),(1,0) is a left
turn. -/
theorem find_orientation_classification_witness :
    ((find_orientation (mk_triplet ⟨1,0⟩ ⟨0,0⟩ ⟨0,1⟩)).right_turn = true ∧
      (find_orientation (mk_triplet ⟨1,0⟩ ⟨0,0⟩ ⟨0,1⟩)).collinearity = false) ∧
    ((find_orientation (mk_triplet ⟨1,0⟩ ⟨0,0⟩ ⟨-1,0⟩)).right_turn = true ∧
      (find_orientation (mk_triplet ⟨1,0⟩ ⟨0,0⟩ ⟨-1,0⟩)).collinearity = true) ∧
    ((find_orientation (mk_triplet ⟨1,0⟩ ⟨0,0⟩ ⟨2,0⟩)).right_turn = false ∧
      (find_orientation (mk_triplet ⟨1,0⟩ ⟨0,0⟩ ⟨2,0⟩)).collinearity = true) ∧
    ((find_orientation (mk_triplet ⟨0,1⟩ ⟨0,0⟩ ⟨1,0⟩)).right_turn = false ∧
      (find_orientation (mk_triplet ⟨0,1⟩ ⟨0,0⟩ ⟨1,0⟩)).collinearity = false) :=
  ⟨(find_orientation_classification ⟨1,0⟩ ⟨0,0⟩ ⟨0,1⟩).1 (by norm_num),
   (find_orientation_classification ⟨1,0⟩ ⟨0,0⟩ ⟨-1,0⟩).2.1 (by norm_num) (by norm_num),
   (find_orientation_classification ⟨1,0⟩ ⟨0,0⟩ ⟨2,0⟩).2.2.1 (by norm_num) (by norm_num),
   (find_orientation_classification ⟨0,1⟩ ⟨0,0⟩ ⟨1,0⟩).2.2.2 (by norm_num)⟩

/-- Counterexample to C4: for the degenerate triplet p1 = p2 = (0,0),
p3 = (1,0) both the determinant and the dot product are 0, and
`find_orientation` leaves the collinearity flag at `false` — the triplet is
NOT classified as collinear (no branch of the if/else chain fires). -/
theorem find_orientation_degenerate_counterexample :
    (mk_triplet ⟨0,0⟩ ⟨0,0⟩ ⟨1,0⟩).determinent = 0 ∧
    (mk_triplet ⟨0,0⟩ ⟨0,0⟩ ⟨1,0⟩).dot_product = 0 ∧
    (find_orientation (mk_triplet ⟨0,0⟩ ⟨0,0⟩ ⟨1,0⟩)).collinearity = false ∧
    (find_orientation (mk_triplet ⟨0,0⟩ ⟨0,0⟩ ⟨1,0⟩)).right_turn = false := by
  decide

/-- C4 (amended): for every triplet with determinant = 0 and dotProduct = 0
(e.g. one with a degenerate zero-length vector, p1 = p2), `find_orientation`
falls through every branch and leaves both flags at their initialized `false`
values: the triplet is classified as a non-collinear non-right-turn, not as
collinear StraightForward. -/
theorem find_orientation_degenerate (p1 p2 p3 : point)
    (hdet : (p1.x - p2.x) * (p3.y - p2.y) - (p1.y - p2.y) * (p3.x - p2.x) = 0)
    (hdot : (p1.x - p2.x) * (p3.x - p2.x) + (p1.y - p2.y) * (p3.y - p2.y) = 0) :
    (find_orientation (mk_triplet p1 p2 p3)).right_turn = false ∧
    (find_orientation (mk_triplet p1 p2 p3)).collinearity = false := by
  rw [find_orientation_of_zero_zero _
    (by rw [mk_triplet_determinent]; exact hdet)
    (by rw [mk_triplet_dot_product]; exact hdot)]
  exact ⟨rfl, rfl⟩

/-- Witness for the amended C4, at the degenerate triplet p1 = p2 = (0,0),
p3 = (1,0). -/
theorem find_orientation_degenerate_witness :
    (find_orientation (mk_triplet ⟨0,0⟩ ⟨0,0⟩ ⟨1,0⟩)).right_turn = false ∧
    (find_orientation (mk_triplet ⟨0,0⟩ ⟨0,0⟩ ⟨1,0⟩)).collinearity = false :=
  find_orientation_degenerate ⟨0,0⟩ ⟨0,0⟩ ⟨1,0⟩ (by norm_num) (by norm_num)

/-! ### The 0/1/2-point special cases -/

theorem find_leftmost_point_pair (p q : point) :
    find_leftmost_point ⊤ [p, q] = if q.x < p.x then 1 else 0 := by
  simp only [find_leftmost_point, flp_go]
  rw [if_pos (WithTop.coe_lt_top p.x)]
  by_cases h : q.x < p.x
  · rw [if_pos (WithTop.coe_lt_coe.mpr h), if_pos h]
  · rw [if_neg (fun hc => h (WithTop.coe_lt_coe.mp hc)), if_neg h]

/-- C6: `find_convex_hull` on 0 points returns the empty sequence; on 1 point
returns exactly that point; on 2 points returns both points with the leftmost
one first (the one with the strictly smaller x-coordinate; index 0 wins the
tie), the other second. -/
theorem find_convex_hull_small_sets (p q : point) (fuel : Nat) (draws : List Nat) :
    find_convex_hull [] fuel draws = some [] ∧
    find_convex_hull [p] fuel draws = some [p] ∧
    (q.x < p.x → find_convex_hull [p, q] fuel draws = some [q, p]) ∧
    (¬ q.x < p.x → find_convex_hull [p, q] fuel draws = some [p, q]) := by
  refine ⟨rfl, rfl, fun h => ?_, fun h => ?_⟩
  · show find_convex_hull [p, q] fuel draws = some [q, p]
    unfold find_convex_hull
    rw [find_leftmost_point_pair, if_pos h]
    rfl
  · show find_convex_hull [p, q] fuel draws = some [p, q]
    unfold find_convex_hull
    rw [find_leftmost_point_pair, if_neg h]
    rfl

/-- Witness for C6 at concrete inputs: the empty set, the single point (3,4),
and the two-point sets {(1,0),(0,0)} (second point leftmost) and
{(0,0),(1,0)} (first point leftmost). -/
theorem find_convex_hull_small_sets_witness :
    find_convex_hull [] 1 [] = some [] ∧
    find_convex_hull [(⟨3,4⟩ : point)] 1 [] = some [⟨3,4⟩] ∧
    find_convex_hull [(⟨1,0⟩ : point), ⟨0,0⟩] 1 [] = some [⟨0,0⟩, ⟨1,0⟩] ∧
    find_convex_hull [(⟨0,0⟩ : point), ⟨1,0⟩] 1 [] = some [⟨0,0⟩, ⟨1,0⟩] :=
  ⟨(find_convex_hull_small_sets ⟨0,0⟩ ⟨0,0⟩ 1 []).1,
   (find_convex_hull_small_sets ⟨3,4⟩ ⟨0,0⟩ 1 []).2.1,
   (find_convex_hull_small_sets ⟨1,0⟩ ⟨0,0⟩ 1 []).2.2.1 (by norm_num),
   (find_convex_hull_small_sets ⟨0,0⟩ ⟨1,0⟩ 1 []).2.2.2 (by norm_num)⟩

/-! ### `find_new_point`: termination and range -/

theorem find_new_point_nil (points : List point) (exceptions : List Nat) :
    find_new_point points exceptions [] = none := rfl

theorem find_new_point_cons (points : List point) (exceptions : List Nat)
    (d : Nat) (ds : List Nat) :
    find_new_point points exceptions (d :: ds) =
      if d % points.length ∈ exceptions then find_new_point points exceptions ds
      else some (d % points.length, ds) := rfl

theorem find_new_point_sound (points : List point) (exceptions : List Nat)
    (h : points ≠ []) :
    ∀ draws i rest, find_new_point points exceptions draws = some (i, rest) →
      i < points.length ∧ i ∉ exceptions := by
  intro draws
  induction draws with
  | nil => intro i rest hrun; rw [find_new_point_nil] at hrun; exact absurd hrun (by simp)
  | cons d ds ih =>
    intro i rest hrun
    rw [find_new_point_cons] at hrun
    by_cases hm : d % points.length ∈ exceptions
    · rw [if_pos hm] at hrun
      exact ih i rest hrun
    · rw [if_neg hm] at hrun
      have hpair := Option.some.inj hrun
      have hi : i = d % points.length := (congrArg Prod.fst hpair).symm
      subst hi
      exact ⟨Nat.mod_lt d (List.length_pos.mpr h), hm⟩

theorem find_new_point_exists (points : List point) (exceptions : List Nat)
    (hfree : ∃ i, i < points.length ∧ i ∉ exceptions) :
    ∃ draws i rest, find_new_point points exceptions draws = some (i, rest) := by
  obtain ⟨i, hi, hni⟩ := hfree
  refine ⟨[i], i, [], ?_⟩
  rw [find_new_point_cons, Nat.mod_eq_of_lt hi, if_neg hni]

/-- C8: for every non-empty points vector and every exceptions list that
leaves at least one index of 0..n−1 available, `find_new_point` terminates
under the modelled pseudo-random stream (some finite draw list makes it
return) and every returned index lies in [0, n) and is not a member of the
exceptions list. -/
theorem find_new_point_terminates_in_range (points : List point)
    (exceptions : List Nat) (h : points ≠ [])
    (hfree : ∃ i, i < points.length ∧ i ∉ exceptions) :
    (∃ draws i rest, find_new_point points exceptions draws = some (i, rest)) ∧
    (∀ draws i rest, find_new_point points exceptions draws = some (i, rest) →
      i < points.length ∧ i ∉ exceptions) :=
  ⟨find_new_point_exists points exceptions hfree,
   find_new_point_sound points exceptions h⟩

/-- Witness for C8 with the two-point vector {(0,0),(1,0)} and the exceptions
list [0]: index 1 remains available. -/
theorem find_new_point_terminates_in_range_witness :
    (∃ draws i rest,
      find_new_point [(⟨0,0⟩ : point), ⟨1,0⟩] [0] draws = some (i, rest)) ∧
    (∀ draws i rest,
      find_new_point [(⟨0,0⟩ : point), ⟨1,0⟩] [0] draws = some (i, rest) →
      i < ([(⟨0,0⟩ : point), ⟨1,0⟩]).length ∧ i ∉ [0]) :=
  find_new_point_terminates_in_range [⟨0,0⟩, ⟨1,0⟩] [0] (by decide)
    ⟨1, by decide, by decide⟩

/-! ### The entry point and input-length validation -/

/-- Counterexample to C9: the entry point performs no input-length
validation.  On the mismatched-length input x = [0], y = [0, 5] (lengths 1
and 2; every index the loop touches is in bounds, so the C++ behaviour is
well defined here) `jarvis_march` silently processes the input and returns
the ordinary output [0] — no InvalidInput condition is signalled. -/
theorem jarvis_march_no_length_validation :
    ([(0 : ℚ)]).length ≠ ([(0 : ℚ), 5]).length ∧
    jarvis_march [0] [0, 5] 1 [] = some [0] := by
  constructor
  · decide
  · decide

/-- C9 (amended): the entry point does not validate input lengths; it builds
one point per index of `x`, reading `y` at the same indices, so any trailing
entries of a longer `y` are silently ignored and the call proceeds as if `y`
had been truncated to the length of `x`.  (When `y` is shorter than `x` the
C++ reads out of bounds — undefined behaviour — instead of signalling
InvalidInput.) -/
theorem jarvis_march_ignores_extra_y (x y : List ℚ) (fuel : Nat)
    (draws : List Nat) (_h : x.length ≤ y.length) :
    jarvis_march x y fuel draws = jarvis_march x (y.take x.length) fuel draws := by
  unfold jarvis_march
  have hpts : (List.range x.length).map
      (fun i => point.mk (x.getD i 0) (y.getD i 0)) =
      (List.range x.length).map
        (fun i => point.mk (x.getD i 0) ((y.take x.length).getD i 0)) := by
    refine List.map_congr_left (fun i hi => ?_)
    rw [List.mem_range] at hi
    simp [List.getD_eq_getElem?_getD, List.getElem?_take, hi]
  rw [hpts]

/-- Witness for the amended C9 at x = [0], y = [0, 5]. -/
theorem jarvis_march_ignores_extra_y_witness :
    jarvis_march [0] [0, 5] 1 [] =
      jarvis_march [0] (([(0 : ℚ), 5]).take (([(0 : ℚ)]).length)) 1 [] :=
  jarvis_march_ignores_extra_y [0] [0, 5] 1 [] (by decide)

/-! ### `find_leftmost_point` returns the first argmin -/

theorem flp_go_cons (p : point) (ps : List point) (val : WithTop ℚ)
    (i best : Nat) :
    flp_go (p :: ps) val i best =
      if (p.x : WithTop ℚ) < val then flp_go ps (p.x : WithTop ℚ) (i + 1) i
      else flp_go ps val (i + 1) best := rfl

theorem flp_go_no_improve :
    ∀ (ps : List point) (val : WithTop ℚ) (i best : Nat),
      (∀ p ∈ ps, ¬((p.x : WithTop ℚ) < val)) → flp_go ps val i best = best := by
  intro ps
  induction ps with
  | nil => intro val i best _; rfl
  | cons p ps ih =>
    intro val i best hall
    rw [flp_go_cons, if_neg (hall p (List.mem_cons_self p ps))]
    exact ih val (i + 1) best (fun q hq => hall q (List.mem_cons_of_mem p hq))

theorem flp_go_improve :
    ∀ (ps : List point) (val : WithTop ℚ) (i best : Nat),
      (∃ p ∈ ps, (p.x : WithTop ℚ) < val) →
      ∃ k, k < ps.length ∧ flp_go ps val i best = i + k ∧
        (((ps.getD k default).x : WithTop ℚ) < val) ∧
        (∀ j, j < ps.length →
          (ps.getD k default).x ≤ (ps.getD j default).x ∨
          ¬(((ps.getD j default).x : WithTop ℚ) < val)) ∧
        (∀ j, j < k →
          (ps.getD k default).x < (ps.getD j default).x ∨
          ¬(((ps.getD j default).x : WithTop ℚ) < val)) := by
  intro ps
  induction ps with
  | nil =>
    intro val i best hex
    obtain ⟨p, hp, -⟩ := hex
    exact absurd hp (List.not_mem_nil p)
  | cons p ps ih =>
    intro val i best hex
    rw [flp_go_cons]
    by_cases hp : (p.x : WithTop ℚ) < val
    · rw [if_pos hp]
      by_cases hex2 : ∃ q ∈ ps, (q.x : WithTop ℚ) < (p.x : WithTop ℚ)
      · obtain ⟨k, hk, heq, hklt, hmin, hfirst⟩ := ih (p.x : WithTop ℚ) (i + 1) i hex2
        have hkp : (ps.getD k default).x < p.x := WithTop.coe_lt_coe.mp hklt
        refine ⟨k + 1, Nat.succ_lt_succ hk, by rw [heq]; omega, ?_, ?_, ?_⟩
        · rw [List.getD_cons_succ]
          exact hklt.trans hp
        · intro j hj
          cases j with
          | zero =>
            rw [List.getD_cons_succ, List.getD_cons_zero]
            exact Or.inl (le_of_lt hkp)
          | succ j =>
            rw [List.getD_cons_succ, List.getD_cons_succ]
            rcases hmin j (Nat.lt_of_succ_lt_succ hj) with hle | hnlt
            · exact Or.inl hle
            · have hpj : p.x ≤ (ps.getD j default).x :=
                WithTop.coe_le_coe.mp (not_lt.mp hnlt)
              exact Or.inl (le_of_lt (lt_of_lt_of_le hkp hpj))
        · intro j hj
          cases j with
          | zero =>
            rw [List.getD_cons_succ, List.getD_cons_zero]
            exact Or.inl hkp
          | succ j =>
            rw [List.getD_cons_succ, List.getD_cons_succ]
            rcases hfirst j (Nat.lt_of_succ_lt_succ hj) with hlt | hnlt
            · exact Or.inl hlt
            · have hpj : p.x ≤ (ps.getD j default).x :=
                WithTop.coe_le_coe.mp (not_lt.mp hnlt)
              exact Or.inl (lt_of_lt_of_le hkp hpj)
      · push_neg at hex2
        rw [flp_go_no_improve ps (p.x : WithTop ℚ) (i + 1) i
          (fun q hq => not_lt.mpr (hex2 q hq))]
        refine ⟨0, Nat.succ_pos _, by omega, ?_, ?_, ?_⟩
        · rw [List.getD_cons_zero]
          exact hp
        · intro j hj
          cases j with
          | zero => exact Or.inl le_rfl
          | succ j =>
            rw [List.getD_cons_zero, List.getD_cons_succ]
            have hjlen : j < ps.length := Nat.lt_of_succ_lt_succ hj
            have hmem : ps.getD j default ∈ ps := by
              rw [List.getD_eq_getElem ps default hjlen]
              exact List.getElem_mem hjlen
            exact Or.inl (WithTop.coe_le_coe.mp (hex2 (ps.getD j default) hmem))
        · intro j hj
          exact absurd hj (Nat.not_lt_zero j)
    · rw [if_neg hp]
      have hex2 : ∃ q ∈ ps, (q.x : WithTop ℚ) < val := by
        obtain ⟨q, hq, hlt⟩ := hex
        rcases List.mem_cons.mp hq with rfl | hq2
        · exact absurd hlt hp
        · exact ⟨q, hq2, hlt⟩
      obtain ⟨k, hk, heq, hklt, hmin, hfirst⟩ := ih val (i + 1) best hex2
      refine ⟨k + 1, Nat.succ_lt_succ hk, by rw [heq]; omega, ?_, ?_, ?_⟩
      · rw [List.getD_cons_succ]
        exact hklt
      · intro j hj
        cases j with
        | zero =>
          rw [List.getD_cons_zero]
          exact Or.inr hp
        | succ j =>
          rw [List.getD_cons_succ, List.getD_cons_succ]
          exact hmin j (Nat.lt_of_succ_lt_succ hj)
      · intro j hj
        cases j with
        | zero =>
          rw [List.getD_cons_zero]
          exact Or.inr hp
        | succ j =>
          rw [List.getD_cons_succ, List.getD_cons_succ]
          exact hfirst j (Nat.lt_of_succ_lt_succ hj)

/-- C7: for every points vector that contains a point whose x-coordinate is
strictly below the supplied initial `leftmost_val` (the callers pass +∞),
`find_leftmost_point` returns an in-range index whose point has the smallest
x-coordinate of the whole vector, and every strictly earlier index holds a
point with a strictly larger x-coordinate — so on ties the first index in
iteration order wins. -/
theorem find_leftmost_point_first_argmin (leftmost_val : WithTop ℚ)
    (points : List point)
    (h : ∃ j, j < points.length ∧
      (((points.getD j default).x : WithTop ℚ) < leftmost_val)) :
    find_leftmost_point leftmost_val points < points.length ∧
    (∀ j, j < points.length →
      (points.getD (find_leftmost_point leftmost_val points) default).x ≤
        (points.getD j default).x) ∧
    (∀ j, j < find_leftmost_point leftmost_val points →
      (points.getD (find_leftmost_point leftmost_val points) default).x <
        (points.getD j default).x) := by
  obtain ⟨j0, hj0, hlt0⟩ := h
  have hex : ∃ p ∈ points, (p.x : WithTop ℚ) < leftmost_val := by
    refine ⟨points.getD j0 default, ?_, hlt0⟩
    rw [List.getD_eq_getElem points default hj0]
    exact List.getElem_mem hj0
  obtain ⟨k, hk, heq, hklt, hmin, hfirst⟩ :=
    flp_go_improve points leftmost_val 0 0 hex
  have hres : find_leftmost_point leftmost_val points = k := by
    rw [find_leftmost_point, heq]
    omega
  rw [hres]
  refine ⟨hk, fun j hj => ?_, fun j hj => ?_⟩
  · rcases hmin j hj with hle | hnlt
    · exact hle
    · exact le_of_lt (WithTop.coe_lt_coe.mp (lt_of_lt_of_le hklt (not_lt.mp hnlt)))
  · rcases hfirst j hj with hlt | hnlt
    · exact hlt
    · exact WithTop.coe_lt_coe.mp (lt_of_lt_of_le hklt (not_lt.mp hnlt))

/-- Witness for C7 with initial value +∞ and the points (2,0), (1,0), (1,5):
the minimum x-coordinate 1 is attained first at index 1. -/
theorem find_leftmost_point_first_argmin_witness :
    find_leftmost_point ⊤ [(⟨2,0⟩ : point), ⟨1,0⟩, ⟨1,5⟩] <
      ([(⟨2,0⟩ : point), ⟨1,0⟩, ⟨1,5⟩]).length ∧
    (∀ j, j < ([(⟨2,0⟩ : point), ⟨1,0⟩, ⟨1,5⟩]).length →
      (([(⟨2,0⟩ : point), ⟨1,0⟩, ⟨1,5⟩]).getD
          (find_leftmost_point ⊤ [(⟨2,0⟩ : point), ⟨1,0⟩, ⟨1,5⟩]) default).x ≤
        (([(⟨2,0⟩ : point), ⟨1,0⟩, ⟨1,5⟩]).getD j default).x) ∧
    (∀ j, j < find_leftmost_point ⊤ [(⟨2,0⟩ : point), ⟨1,0⟩, ⟨1,5⟩] →
      (([(⟨2,0⟩ : point), ⟨1,0⟩, ⟨1,5⟩]).getD
          (find_leftmost_point ⊤ [(⟨2,0⟩ : point), ⟨1,0⟩, ⟨1,5⟩]) default).x <
        (([(⟨2,0⟩ : point), ⟨1,0⟩, ⟨1,5⟩]).getD j default).x) :=
  find_leftmost_point_first_argmin ⊤ [⟨2,0⟩, ⟨1,0⟩, ⟨1,5⟩]
    ⟨0, by decide, by decide⟩

/-! ### The hull index walk: unfolding lemmas and the duplicate-freeness
invariant -/

theorem hull_loop_zero (points : List point) (draws : List Nat)
    (ch : List Nat) (apc : Bool) : hull_loop points 0 draws ch apc = none := rfl

theorem hull_loop_succ_none (points : List point) (fuel : Nat)
    (draws : List Nat) (ch : List Nat) (apc : Bool)
    (hf : find_new_point points [ch.getLastD 0] draws = none) :
    hull_loop points (fuel + 1) draws ch apc = none := by
  unfold hull_loop
  rw [hf]

theorem hull_loop_succ_some (points : List point) (fuel : Nat)
    (draws : List Nat) (ch : List Nat) (apc : Bool) (c0 : Nat)
    (draws1 : List Nat)
    (hf : find_new_point points [ch.getLastD 0] draws = some (c0, draws1)) :
    hull_loop points (fuel + 1) draws ch apc =
      if (scan_tests points ch (ch.getLastD 0)
            (List.range points.length) c0 apc).1 ∈ ch then
        some ((if ch.headD 0 =
                  (scan_tests points ch (ch.getLastD 0)
                    (List.range points.length) c0 apc).1 then ch
               else ch ++
                 [(scan_tests points ch (ch.getLastD 0)
                    (List.range points.length) c0 apc).1]),
              (scan_tests points ch (ch.getLastD 0)
                (List.range points.length) c0 apc).2)
      else hull_loop points fuel draws1
        (ch ++
          [(scan_tests points ch (ch.getLastD 0)
             (List.range points.length) c0 apc).1])
        (scan_tests points ch (ch.getLastD 0)
          (List.range points.length) c0 apc).2 := by
  conv_lhs => rw [hull_loop]
  rw [hf]

/-- Counterexample to C5: on the input {(0,0),(2,0),(2,0),(1,2)} — a triangle
with its right corner duplicated — the draws 1, 2, 1, 0 make the walk visit
BOTH coincident copies of (2,0) (indices 1 and 2 are distinct, so neither the
closure test nor the collinearity tie-break stops it), and the returned hull
point sequence [(0,0),(1,2),(2,0),(2,0)] contains a duplicate hull entry. -/
theorem find_convex_hull_duplicate_entries :
    find_convex_hull [⟨0,0⟩, ⟨2,0⟩, ⟨2,0⟩, ⟨1,2⟩] 5 [1, 2, 1, 0] =
      some [⟨0,0⟩, ⟨1,2⟩, ⟨2,0⟩, ⟨2,0⟩] ∧
    ¬ ([(⟨0,0⟩ : point), ⟨1,2⟩, ⟨2,0⟩, ⟨2,0⟩]).Nodup := by
  constructor
  · decide
  · decide

/-- C5 (amended): in the index walk built by the main loop, each point index
appears at most once except that the terminal step may re-append an index
that was already visited; the duplicate is dropped only when it equals the
very first hull index (so the final index list is duplicate-free, or is a
duplicate-free list followed by one repeat of a non-first earlier index).
The returned POINT sequence may nevertheless contain duplicate entries when
the input contains coincident points, since distinct indices can carry equal
points. -/
theorem hull_loop_index_invariant (points : List point) :
    ∀ (fuel : Nat) (draws : List Nat) (ch : List Nat) (apc : Bool)
      (h : List Nat) (apc2 : Bool), ch.Nodup →
      hull_loop points fuel draws ch apc = some (h, apc2) →
      h.Nodup ∨
        ∃ hs i, h = hs ++ [i] ∧ hs.Nodup ∧ i ∈ hs ∧ hs.headD 0 ≠ i := by
  intro fuel
  induction fuel with
  | zero =>
    intro draws ch apc h apc2 hnd hrun
    rw [hull_loop_zero] at hrun
    exact absurd hrun (by simp)
  | succ n ih =>
    intro draws ch apc h apc2 hnd hrun
    cases hf : find_new_point points [ch.getLastD 0] draws with
    | none =>
      rw [hull_loop_succ_none points n draws ch apc hf] at hrun
      exact absurd hrun (by simp)
    | some cd =>
      obtain ⟨c0, draws1⟩ := cd
      rw [hull_loop_succ_some points n draws ch apc c0 draws1 hf] at hrun
      by_cases hmem : (scan_tests points ch (ch.getLastD 0)
          (List.range points.length) c0 apc).1 ∈ ch
      · rw [if_pos hmem] at hrun
        have hpair := Option.some.inj hrun
        rw [Prod.mk.injEq] at hpair
        obtain ⟨hh, -⟩ := hpair
        by_cases hhead : ch.headD 0 = (scan_tests points ch (ch.getLastD 0)
            (List.range points.length) c0 apc).1
        · left
          rw [if_pos hhead] at hh
          rw [← hh]
          exact hnd
        · right
          rw [if_neg hhead] at hh
          exact ⟨ch, _, hh.symm, hnd, hmem, hhead⟩
      · rw [if_neg hmem] at hrun
        have hnd2 : (ch ++ [(scan_tests points ch (ch.getLastD 0)
            (List.range points.length) c0 apc).1]).Nodup := by
          rw [List.nodup_append]
          refine ⟨hnd, List.nodup_singleton _, fun a ha hb => ?_⟩
          rw [List.mem_singleton] at hb
          subst hb
          exact hmem ha
        exact ih draws1 _ _ h apc2 hnd2 hrun

/-- Witness for the amended C5: the run of the main loop on the triangle
{(0,0),(1,0),(0,1)} starting from the leftmost index 0 with draws 1, 0, 0
returns the index walk [0, 2, 1], which is duplicate-free. -/
theorem hull_loop_index_invariant_witness :
    ([0, 2, 1] : List Nat).Nodup ∨
      ∃ hs i, ([0, 2, 1] : List Nat) = hs ++ [i] ∧ hs.Nodup ∧ i ∈ hs ∧
        hs.headD 0 ≠ i :=
  hull_loop_index_invariant [⟨0,0⟩, ⟨1,0⟩, ⟨0,1⟩] 4 [1, 0, 0] [0] true
    [0, 2, 1] false (by decide) (by decide)

/-! ### The canonical fully collinear input {(0,0),(1,0),(2,0),(3,0)} -/

/-- The spec's canonical fully collinear test input. -/
def collinear4 : List point := [⟨0,0⟩, ⟨1,0⟩, ⟨2,0⟩, ⟨3,0⟩]

theorem collinear4_scan0 (c : Nat) (hc : c < 4) (hm : c ∉ ([0] : List Nat)) :
    scan_tests collinear4 [0] 0 (List.range 4) c true = (1, true) := by
  interval_cases c
  · exact absurd (by decide) hm
  · decide
  · decide
  · decide

theorem collinear4_scan1 (c : Nat) (hc : c < 4) (hm : c ∉ ([1] : List Nat)) :
    scan_tests collinear4 [0, 1] 1 (List.range 4) c true = (2, true) := by
  interval_cases c
  · decide
  · exact absurd (by decide) hm
  · decide
  · decide

theorem collinear4_scan2 (c : Nat) (hc : c < 4) (hm : c ∉ ([2] : List Nat)) :
    scan_tests collinear4 [0, 1, 2] 2 (List.range 4) c true = (3, true) := by
  interval_cases c
  · decide
  · decide
  · exact absurd (by decide) hm
  · decide

theorem collinear4_scan3 (c : Nat) (hc : c < 4) (hm : c ∉ ([3] : List Nat)) :
    scan_tests collinear4 [0, 1, 2, 3] 3 (List.range 4) c true = (2, true) := by
  interval_cases c
  · decide
  · decide
  · decide
  · exact absurd (by decide) hm

theorem collinear4_walk3 (fuel : Nat) (draws : List Nat) (h : List Nat)
    (a : Bool) (hrun : hull_loop collinear4 fuel draws [0, 1, 2, 3] true = some (h, a)) :
    h = [0, 1, 2, 3, 2] ∧ a = true := by
  cases fuel with
  | zero => rw [hull_loop_zero] at hrun; exact absurd hrun (by simp)
  | succ n =>
    cases hf : find_new_point collinear4 [([0, 1, 2, 3] : List Nat).getLastD 0] draws with
    | none =>
      rw [hull_loop_succ_none collinear4 n draws _ true hf] at hrun
      exact absurd hrun (by simp)
    | some cd =>
      obtain ⟨c0, d1⟩ := cd
      obtain ⟨hlt, hnm⟩ := find_new_point_sound collinear4 _ (by decide) draws c0 d1 hf
      rw [hull_loop_succ_some collinear4 n draws _ true c0 d1 hf] at hrun
      rw [show ([0, 1, 2, 3] : List Nat).getLastD 0 = 3 from rfl,
        show collinear4.length = 4 from rfl,
        collinear4_scan3 c0 hlt hnm] at hrun
      simp at hrun
      exact ⟨hrun.1.symm, hrun.2⟩

theorem collinear4_walk2 (fuel : Nat) (draws : List Nat) (h : List Nat)
    (a : Bool) (hrun : hull_loop collinear4 fuel draws [0, 1, 2] true = some (h, a)) :
    h = [0, 1, 2, 3, 2] ∧ a = true := by
  cases fuel with
  | zero => rw [hull_loop_zero] at hrun; exact absurd hrun (by simp)
  | succ n =>
    cases hf : find_new_point collinear4 [([0, 1, 2] : List Nat).getLastD 0] draws with
    | none =>
      rw [hull_loop_succ_none collinear4 n draws _ true hf] at hrun
      exact absurd hrun (by simp)
    | some cd =>
      obtain ⟨c0, d1⟩ := cd
      obtain ⟨hlt, hnm⟩ := find_new_point_sound collinear4 _ (by decide) draws c0 d1 hf
      rw [hull_loop_succ_some collinear4 n draws _ true c0 d1 hf] at hrun
      rw [show ([0, 1, 2] : List Nat).getLastD 0 = 2 from rfl,
        show collinear4.length = 4 from rfl,
        collinear4_scan2 c0 hlt hnm] at hrun
      rw [if_neg (by decide)] at hrun
      exact collinear4_walk3 n d1 h a hrun

theorem collinear4_walk1 (fuel : Nat) (draws : List Nat) (h : List Nat)
    (a : Bool) (hrun : hull_loop collinear4 fuel draws [0, 1] true = some (h, a)) :
    h = [0, 1, 2, 3, 2] ∧ a = true := by
  cases fuel with
  | zero => rw [hull_loop_zero] at hrun; exact absurd hrun (by simp)
  | succ n =>
    cases hf : find_new_point collinear4 [([0, 1] : List Nat).getLastD 0] draws with
    | none =>
      rw [hull_loop_succ_none collinear4 n draws _ true hf] at hrun
      exact absurd hrun (by simp)
    | some cd =>
      obtain ⟨c0, d1⟩ := cd
      obtain ⟨hlt, hnm⟩ := find_new_point_sound collinear4 _ (by decide) draws c0 d1 hf
      rw [hull_loop_succ_some collinear4 n draws _ true c0 d1 hf] at hrun
      rw [show ([0, 1] : List Nat).getLastD 0 = 1 from rfl,
        show collinear4.length = 4 from rfl,
        collinear4_scan1 c0 hlt hnm] at hrun
      rw [if_neg (by decide)] at hrun
      exact collinear4_walk2 n d1 h a hrun

theorem collinear4_walk0 (fuel : Nat) (draws : List Nat) (h : List Nat)
    (a : Bool) (hrun : hull_loop collinear4 fuel draws [0] true = some (h, a)) :
    h = [0, 1, 2, 3, 2] ∧ a = true := by
  cases fuel with
  | zero => rw [hull_loop_zero] at hrun; exact absurd hrun (by simp)
  | succ n =>
    cases hf : find_new_point collinear4 [([0] : List Nat).getLastD 0] draws with
    | none =>
      rw [hull_loop_succ_none collinear4 n draws _ true hf] at hrun
      exact absurd hrun (by simp)
    | some cd =>
      obtain ⟨c0, d1⟩ := cd
      obtain ⟨hlt, hnm⟩ := find_new_point_sound collinear4 _ (by decide) draws c0 d1 hf
      rw [hull_loop_succ_some collinear4 n draws _ true c0 d1 hf] at hrun
      rw [show ([0] : List Nat).getLastD 0 = 0 from rfl,
        show collinear4.length = 4 from rfl,
        collinear4_scan0 c0 hlt hnm] at hrun
      rw [if_neg (by decide)] at hrun
      exact collinear4_walk1 n d1 h a hrun

/-- Counterexample to C2: on the spec's own fully collinear example
{(0,0),(1,0),(2,0),(3,0)} (with the draws 1, 2, 3, 0) the output of
`find_convex_hull` is NOT the two extreme endpoints {(0,0),(3,0)}: it is all
four input points, interior points (1,0) and (2,0) included.  The recorded
index walk is [0,1,2,3,2] — the loop walks out point by point and the
degenerate rebuild then emits the whole outward walk. -/
theorem find_convex_hull_collinear4_counterexample :
    find_convex_hull collinear4 5 [1, 2, 3, 0] =
      some [⟨0,0⟩, ⟨1,0⟩, ⟨2,0⟩, ⟨3,0⟩] ∧
    some [(⟨0,0⟩ : point), ⟨1,0⟩, ⟨2,0⟩, ⟨3,0⟩] ≠ some [(⟨0,0⟩ : point), ⟨3,0⟩] ∧
    (⟨1,0⟩ : point) ∈ [(⟨0,0⟩ : point), ⟨1,0⟩, ⟨2,0⟩, ⟨3,0⟩] := by
  refine ⟨by decide, by decide, by decide⟩

/-- C2 (amended): on the canonical fully collinear input
{(0,0),(1,0),(2,0),(3,0)} every examined triplet is collinear
(`all_points_collinear` remains true) and, for EVERY draw sequence and fuel
bound on which the main loop completes, the output is the full outward walk
(0,0),(1,0),(2,0),(3,0) in left-to-right order — the two interior points are
included, not discarded; the output is not the two extreme endpoints alone. -/
theorem find_convex_hull_collinear4 (fuel : Nat) (draws : List Nat)
    (out : List point)
    (h : find_convex_hull collinear4 fuel draws = some out) :
    out = [⟨0,0⟩, ⟨1,0⟩, ⟨2,0⟩, ⟨3,0⟩] := by
  have hred : find_convex_hull collinear4 fuel draws =
      match hull_loop collinear4 fuel draws [0] true with
      | none => none
      | some (ch, apc) =>
        if apc = false then some (ch.map (fun i => collinear4.getD i default))
        else some (rebuild collinear4 ch) := rfl
  rw [hred] at h
  cases hl : hull_loop collinear4 fuel draws [0] true with
  | none => rw [hl] at h; exact absurd h (by simp)
  | some p =>
    obtain ⟨ch, apc⟩ := p
    obtain ⟨hch, hapc⟩ := collinear4_walk0 fuel draws ch apc hl
    subst hch
    subst hapc
    rw [hl] at h
    simp only [Bool.true_eq_false, if_false] at h
    rw [show rebuild collinear4 [0, 1, 2, 3, 2] =
      [(⟨0,0⟩ : point), ⟨1,0⟩, ⟨2,0⟩, ⟨3,0⟩] from by decide] at h
    exact (Option.some.inj h).symm

/-- Witness for the amended C2 at fuel 5 and draws 1, 2, 3, 0. -/
theorem find_convex_hull_collinear4_witness :
    ([(⟨0,0⟩ : point), ⟨1,0⟩, ⟨2,0⟩, ⟨3,0⟩]) =
      [(⟨0,0⟩ : point), ⟨1,0⟩, ⟨2,0⟩, ⟨3,0⟩] :=
  find_convex_hull_collinear4 5 [1, 2, 3, 0]
    [⟨0,0⟩, ⟨1,0⟩, ⟨2,0⟩, ⟨3,0⟩] (by decide)

/-! ### A hull that strictly excludes an input point -/

/-- A five-point input on which the walk can miss a hull vertex: a duplicated
leftmost point (0,0), the collinear column (0,1), (0,2) above it, and the
off-line point (2,2). -/
def bug_points : List point := [⟨0,0⟩, ⟨0,0⟩, ⟨0,1⟩, ⟨0,2⟩, ⟨2,2⟩]

/-- C1 fails on the code: with the draws 2, 1, 0 (initial candidates 2, then
1, then 0) `find_convex_hull` on `bug_points` returns the triangle
[(0,0),(0,1),(2,2)] and omits the input point (0,2), which lies strictly
outside that triangle: the affine functional z.2 − z.1 is at most 1 on every
returned hull point but equals 2 at (0,2), so (0,2) is not in the convex hull
of the returned points.  (At the walk step anchored at (0,1) the drawn
candidate is index 1, the coincident duplicate of (0,0); the triplet with the
test point (0,2) is StraightForward, and the tie-break that should prefer the
uncommitted point does not fire because index 1 is not in the hull index
list, so (0,2) is never selected and the loop closes without it.) -/
theorem find_convex_hull_omits_outside_point :
    find_convex_hull bug_points 4 [2, 1, 0] = some [⟨0,0⟩, ⟨0,1⟩, ⟨2,2⟩] ∧
    (⟨0,2⟩ : point) ∈ bug_points ∧
    ((0 : ℚ), (2 : ℚ)) ∉ convexHull ℚ
      ({((0:ℚ), (0:ℚ)), ((0:ℚ), (1:ℚ)), ((2:ℚ), (2:ℚ))} : Set (ℚ × ℚ)) := by
  refine ⟨by decide, by decide, fun hmem => ?_⟩
  have hlin : IsLinearMap ℚ (fun z : ℚ × ℚ => z.2 - z.1) := by
    constructor
    · intro a b
      simp only [Prod.snd_add, Prod.fst_add]
      ring
    · intro c a
      simp only [Prod.smul_snd, Prod.smul_fst, smul_eq_mul]
      ring
  have hconv : Convex ℚ {z : ℚ × ℚ | z.2 - z.1 ≤ 1} := convex_halfSpace_le hlin 1
  have hsub : ({((0:ℚ), (0:ℚ)), ((0:ℚ), (1:ℚ)), ((2:ℚ), (2:ℚ))} : Set (ℚ × ℚ)) ⊆
      {z : ℚ × ℚ | z.2 - z.1 ≤ 1} := by
    intro z hz
    simp only [Set.mem_insert_iff, Set.mem_singleton_iff] at hz
    rcases hz with rfl | rfl | rfl <;> norm_num
  have hin := convexHull_min hsub hconv hmem
  simp only [Set.mem_setOf_eq] at hin
  norm_num at hin

/-! ### Determinism of the entry point across calls -/

/-- C10: `jarvis_march` is deterministic across calls.  Because the call
re-seeds the generator to the fixed constant 10 before drawing (`srand(10)`),
the output of a call does not depend on the generator state left behind by
earlier calls: a second invocation on the incoming state produced by a first
invocation returns the identical output, and more generally any two incoming
generator states give identical outputs for the same input vectors. -/
theorem jarvis_march_deterministic_across_calls (g : Nat → Nat × Nat)
    (s : Nat) (x y : List ℚ) (fuel k : Nat) :
    (jarvis_march_call g s x y fuel k).1 =
      (jarvis_march_call g (jarvis_march_call g s x y fuel k).2 x y fuel k).1 ∧
    ∀ s2 : Nat, (jarvis_march_call g s x y fuel k).1 =
      (jarvis_march_call g s2 x y fuel k).1 :=
  ⟨rfl, fun _ => rfl⟩

end JarvisMarch
